import Mathlib

set_option maxRecDepth 2048

/-!
Verification development for `custom_helper.py`.

The repository's one nontrivial routine, `regex_strip_legalname`, applies
Python's `re.sub(pattern, '', name)` to each name in a list.  We embed the
relevant fragment of Python's backtracking regex engine shallowly:

* `RE` is an AST covering exactly the constructs appearing in the source
  pattern: literal characters, single-character classes, ordered
  alternation, sequencing, greedy `?`, greedy `*` over a single-character
  class, and the word boundary `\b`.  (Every starred subexpression of the
  source pattern - `(\s|\.|\,|\&)*`, `\w*`, the `\w*` inside `\w+` - is a
  union of disjoint single-character alternatives, so a class star is an
  exact model of the source's group star.)
* `reMatch` enumerates the possible ways a regex can match a prefix of the
  input, in Python's backtracking priority order (alternation left first,
  greedy repetition longest first); the head of the list is the match the
  engine commits to.  The previous character is threaded through as
  `Option Char` so `\b` can be decided.
* `subLoop` is `re.sub` with replacement `''`: scan left to right, remove
  every match found, resume scanning after each match.  Recursion is fuelled;
  fuel `s.length + 1` is always enough (proved below).

Character classes model the ASCII behaviour of Python's `\s`, `\w`, `\W`
(the inputs of interest are ASCII; Python's additional Unicode members of
these classes are not modelled).
-/

/-- ASCII model of Python's `\s` class. -/
def pySpace (c : Char) : Bool :=
  c = ' ' || c = '\t' || c = '\n' || c = '\r' || c = '\x0b' || c = '\x0c'

/-- ASCII model of Python's `\w` class. -/
def pyWord (c : Char) : Bool :=
  c.isAlphanum || c = '_'

/-- The character class `(\s|\.|\,|\&)` of the source pattern's leading
separator group (its four alternatives are disjoint single characters, so
the group is a class). -/
def sepChar (c : Char) : Bool :=
  pySpace c || c = '.' || c = ',' || c = '&'

/-- Regex AST: exactly the constructs used by the source pattern. -/
inductive RE where
  | eps : RE
  | lit : Char → RE
  | cls : (Char → Bool) → RE
  | alt : RE → RE → RE
  | seq : RE → RE → RE
  | opt : RE → RE
  | starCls : (Char → Bool) → RE
  | wordB : RE

/-- Sequence of literal characters (a literal string in the pattern). -/
def lits (cs : List Char) : RE :=
  cs.foldr (fun c r => RE.seq (RE.lit c) r) RE.eps

/-- Matcher state: the previously consumed character (for `\b`) and the
remaining input. -/
abbrev MState := Option Char × List Char

/-- Is there a word boundary between the previous character and the head of
the remaining input? -/
def atBoundary (pv : Option Char) (s : List Char) : Bool :=
  let left := match pv with | none => false | some c => pyWord c
  let right := match s with | [] => false | c :: _ => pyWord c
  left != right

/-- Length of the maximal prefix of `s` whose characters satisfy `p`. -/
def runLength (p : Char → Bool) : List Char → Nat
  | [] => 0
  | c :: cs => if p c then runLength p cs + 1 else 0

/-- Advance a matcher state by consuming `n` characters. -/
def consume : MState → Nat → MState
  | st, 0 => st
  | (pv, []), _ + 1 => (pv, [])
  | (_, c :: cs), n + 1 => consume (some c, cs) n

/-- All ways `r` can match a prefix of `s` (with previous character `pv`),
as the list of resulting states in Python's backtracking priority order:
the head of the list is the alternative the engine commits to. -/
def reMatch : RE → Option Char → List Char → List MState
  | RE.eps, pv, s => [(pv, s)]
  | RE.lit _, _, [] => []
  | RE.lit c, _, x :: xs => if x = c then [(some x, xs)] else []
  | RE.cls _, _, [] => []
  | RE.cls p, _, x :: xs => if p x then [(some x, xs)] else []
  | RE.alt a b, pv, s => reMatch a pv s ++ reMatch b pv s
  | RE.seq a b, pv, s => (reMatch a pv s).flatMap fun st => reMatch b st.1 st.2
  | RE.opt a, pv, s => reMatch a pv s ++ [(pv, s)]
  | RE.starCls p, pv, s =>
    (List.range (runLength p s + 1)).map fun i => consume (pv, s) (runLength p s - i)
  | RE.wordB, pv, s => if atBoundary pv s then [(pv, s)] else []

/-- The match the engine commits to at the current position, if any. -/
def reFind (r : RE) (pv : Option Char) (s : List Char) : Option MState :=
  (reMatch r pv s).head?

/-- `re.sub(r, '', s)`: scan left to right; at each position take the
engine's match if there is one, drop the matched characters and resume
after them (a zero-width match removes nothing and the scan advances one
character).  `fuel` bounds the recursion; `s.length + 1` always suffices. -/
def subLoop (r : RE) : Nat → Option Char → List Char → List Char
  | 0, _, s => s
  | fuel + 1, pv, s =>
    match reFind r pv s with
    | some (pv2, rest) =>
      if rest.length = s.length then
        match s with
        | [] => []
        | c :: cs => c :: subLoop r fuel (some c) cs
      else
        subLoop r fuel pv2 rest
    | none =>
      match s with
      | [] => []
      | c :: cs => c :: subLoop r fuel (some c) cs

/-- Ordered alternation `a₁|a₂|...|aₙ` of a nonempty list of alternatives
(the empty list gives a never-matching regex). -/
def alts : List RE → RE
  | [] => RE.cls fun _ => false
  | [r] => r
  | r :: rs => RE.alt r (alts rs)

/-- Sequential composition of a list of regexes. -/
def seqs (rs : List RE) : RE :=
  rs.foldr RE.seq RE.eps

/-- The source pattern
`(\s|\.|\,|\&)*(\.com|Enterprise|Worldwide|Int\'l|N\.V\.|LLC|Co\b|Inc\b|Corp\w*|Group\sInc|Group|Company|Holdings\sInc|\WCo(\s|\.)|plc|Ltd|Int'l\.|Holdings|\(?Class\s\w+\)?)\.?\W?`
with the alternatives in source order (Python alternation is ordered). -/
def legalPattern : RE :=
  seqs
    [ RE.starCls sepChar,
      alts
        [ lits ['.', 'c', 'o', 'm'],
          lits "Enterprise".data,
          lits "Worldwide".data,
          lits ['I', 'n', 't', '\'', 'l'],
          lits ['N', '.', 'V', '.'],
          lits "LLC".data,
          RE.seq (lits ['C', 'o']) RE.wordB,
          RE.seq (lits ['I', 'n', 'c']) RE.wordB,
          RE.seq (lits ['C', 'o', 'r', 'p']) (RE.starCls pyWord),
          seqs [lits "Group".data, RE.cls pySpace, lits ['I', 'n', 'c']],
          lits "Group".data,
          lits "Company".data,
          seqs [lits "Holdings".data, RE.cls pySpace, lits ['I', 'n', 'c']],
          seqs [RE.cls fun c => !pyWord c, lits ['C', 'o'],
                RE.alt (RE.cls pySpace) (RE.lit '.')],
          lits "plc".data,
          lits "Ltd".data,
          RE.seq (lits ['I', 'n', 't', '\'', 'l']) (RE.lit '.'),
          lits "Holdings".data,
          seqs [RE.opt (RE.lit '('), lits "Class".data, RE.cls pySpace,
                RE.cls pyWord, RE.starCls pyWord, RE.opt (RE.lit ')')]],
      RE.opt (RE.lit '.'),
      RE.opt (RE.cls fun c => !pyWord c)]

/-- `re.sub(pattern, '', n)` for one name. -/
def stripLegal (n : String) : String :=
  String.mk (subLoop legalPattern (n.data.length + 1) none n.data)

/-- `regex_strip_legalname`: strip the legal-entity pattern from every name
in the list (`[re.sub(pattern, '', n) for n in raw_names]`). -/
def regex_strip_legalname (raw_names : List String) : List String :=
  raw_names.map stripLegal

/-- Does the engine find a match anywhere in `s` (scanning left to right
with previous character `pv`)? -/
def hasMatchFrom (r : RE) : Option Char → List Char → Bool
  | pv, [] => (reFind r pv []).isSome
  | pv, c :: cs => (reFind r pv (c :: cs)).isSome || hasMatchFrom r (some c) cs

/-- Does the source pattern match anywhere in the name? -/
def hasLegalMatch (n : String) : Bool :=
  hasMatchFrom legalPattern none n.data

/-- Modelled from the spec: "Matching is non-repeated single-pass
substitution: only the first occurrence of any pattern alternative is
removed per name".  This reference loop removes the first match and leaves
the rest of the name untouched; it exists only to be compared with
`subLoop`, which embeds the source's `re.sub` (global substitution). -/
def subFirstLoop (r : RE) : Nat → Option Char → List Char → List Char
  | 0, _, s => s
  | fuel + 1, pv, s =>
    match reFind r pv s with
    | some (_, rest) => rest
    | none =>
      match s with
      | [] => []
      | c :: cs => c :: subFirstLoop r fuel (some c) cs

/-- Modelled from the spec: strip only the first occurrence of the pattern
from a name (reference function for the single-substitution reading). -/
def stripLegalFirst (n : String) : String :=
  String.mk (subFirstLoop legalPattern (n.data.length + 1) none n.data)

/-!
### List utilities

`list_flatten`, `list_remove_duplicates` and `list_batch` from
`custom_helper.py`.
-/

/-- `list_flatten`: `[element for sublist in nested_list for element in sublist]`. -/
def list_flatten (nested_list : List (List α)) : List α :=
  nested_list.flatten

/-- The membership-filtering comprehension of `list_remove_duplicates`:
`seen` is the set of elements already emitted, and an element is kept iff
it is not yet in `seen` (in which case it is added).  The Python `set` is
modelled by the list of elements added so far (only membership is used). -/
def lrdAux [DecidableEq α] (seen : List α) : List α → List α
  | [] => []
  | x :: xs => if x ∈ seen then lrdAux seen xs else x :: lrdAux (x :: seen) xs

/-- `list_remove_duplicates`:
`seen = set(); return [x for x in l if not (x in seen or seen_add(x))]`. -/
def list_remove_duplicates [DecidableEq α] (l : List α) : List α :=
  lrdAux [] l

/-- Python's `range(start, stop, step)` for `step > 0`: the indices
`start, start+step, ...` below `stop` (empty when `step = 0`, where Python
would raise; `list_batch` is only claimed for positive batch sizes). -/
def rangeStep (start stop step : Nat) : List Nat :=
  (List.range ((stop - start + step - 1) / step)).map fun k => start + k * step

/-- `list_batch`: `for i in range(0, len(lst), n): yield lst[i:i + n]`,
with the generator reified as the list of produced chunks and the slice
`lst[i:i+n]` as `(lst.drop i).take n`. -/
def list_batch (lst : List α) (n : Nat) : List (List α) :=
  (rangeStep 0 lst.length n).map fun i => (lst.drop i).take n

/-!
### Date model

`date_add_year` from `custom_helper.py`.  Dates are modelled in the
proleptic Gregorian calendar with unbounded integer years; Python's
`datetime.date` restricts years to `1..9999` (outside that range both the
`replace` and the fallback construction raise, so the function is simply
undefined there) but agrees with this model on its whole domain.
Ordinals are computed by the standard civil-calendar conversion with
floor/Euclidean division (divisors are positive, where the two agree).
-/

structure Date where
  year : Int
  month : Int
  day : Int
deriving DecidableEq, Repr

/-- Gregorian leap-year rule. -/
def isLeap (y : Int) : Bool :=
  (y % 4 == 0 && y % 100 != 0) || y % 400 == 0

/-- Number of days in month `m` of year `y`. -/
def daysInMonth (y m : Int) : Int :=
  if m = 2 then (if isLeap y then 29 else 28)
  else if m = 4 || m = 6 || m = 9 || m = 11 then 30
  else 31

/-- Is `(y, m, d)` a real calendar date?  (`date.replace` raises
`ValueError` exactly when this fails, for in-range years.) -/
def validDate (y m d : Int) : Bool :=
  1 ≤ m && m ≤ 12 && 1 ≤ d && d ≤ daysInMonth y m

/-- Days since the civil epoch 1970-01-01 of the date `(y, m, d)`
(Hinnant's `days_from_civil`; the model of Python's `date.toordinal`, up
to the constant epoch shift, which cancels in all differences). -/
def civilToDays (y m d : Int) : Int :=
  let y2 := if m ≤ 2 then y - 1 else y
  let era := y2 / 400
  let yoe := y2 - era * 400
  let mp := if m ≤ 2 then m + 9 else m - 3
  let doy := (153 * mp + 2) / 5 + d - 1
  let doe := yoe * 365 + yoe / 4 - yoe / 100 + doy
  era * 146097 + doe - 719468

/-- Date with the given number of days since 1970-01-01 (Hinnant's
`civil_from_days`; the model of Python's `date.fromordinal`). -/
def daysToCivil (z : Int) : Date :=
  let z2 := z + 719468
  let era := z2 / 146097
  let doe := z2 - era * 146097
  let yoe := (doe - doe / 1460 + doe / 36524 - doe / 146097) / 365
  let y := yoe + era * 400
  let doy := doe - (365 * yoe + yoe / 4 - yoe / 100)
  let mp := (5 * doy + 2) / 153
  let d := doy - (153 * mp + 2) / 5 + 1
  let m := if mp < 10 then mp + 3 else mp - 9
  ⟨if m ≤ 2 then y + 1 else y, m, d⟩

/-- `date_add_year(d, years)`:
`try: return d.replace(year = d.year + years)`
`except ValueError: return d + (date(d.year + years, 1, 1) - date(d.year, 1, 1))`.
The `try` branch succeeds exactly when the target date is valid; the
fallback adds the timedelta `date(y+years,1,1) - date(y,1,1)` (a difference
of ordinals) to `d` via the ordinal conversions. -/
def date_add_year (d : Date) (years : Int) : Date :=
  if validDate (d.year + years) d.month d.day then
    ⟨d.year + years, d.month, d.day⟩
  else
    daysToCivil (civilToDays d.year d.month d.day +
      (civilToDays (d.year + years) 1 1 - civilToDays d.year 1 1))

/-- The elements of a list in order of first occurrence, each exactly once:
the reference function for the claimed behaviour of
`list_remove_duplicates`. -/
def firstOccurrenceDedup [DecidableEq α] : List α → List α
  | [] => []
  | x :: xs => x :: firstOccurrenceDedup (xs.filter (fun y => y ≠ x))
termination_by l => l.length
decreasing_by
  simp only [List.length_cons]
  exact Nat.lt_succ_of_le (List.length_filter_le _ _)

/- ### Lemmas about the list utilities -/

theorem rangeStep_zero (n : Nat) : rangeStep 0 0 n = [] := by
  cases n with
  | zero => rfl
  | succ m =>
    have h : m / (m + 1) = 0 := Nat.div_eq_of_lt (Nat.lt_succ_self m)
    simp [rangeStep, h]

theorem list_batch_nil (n : Nat) : list_batch ([] : List α) n = [] := by
  simp [list_batch, rangeStep_zero]

theorem list_batch_cons (lst : List α) (n : Nat) (hn : 0 < n) (hne : lst ≠ []) :
    list_batch lst n = lst.take n :: list_batch (lst.drop n) n := by
  have hL : 0 < lst.length := List.length_pos.mpr hne
  have hcount : (lst.length - 0 + n - 1) / n = (lst.length - 1) / n + 1 := by
    have h1 : lst.length - 0 + n - 1 = (lst.length - 1) + n := by omega
    rw [h1, Nat.add_div_right _ hn]
  have hcount2 : ((lst.drop n).length - 0 + n - 1) / n = (lst.length - 1) / n := by
    rw [List.length_drop]
    rcases le_or_lt n lst.length with h | h
    · have h1 : lst.length - n - 0 + n - 1 = lst.length - 1 := by omega
      rw [h1]
    · have h1 : lst.length - n - 0 + n - 1 = n - 1 := by omega
      rw [h1, Nat.div_eq_of_lt (by omega), Nat.div_eq_of_lt (by omega)]
  simp only [list_batch, rangeStep, hcount, hcount2, List.map_map,
    List.range_succ_eq_map, List.map_cons]
  congr 1
  · simp
  · apply List.map_congr_left
    intro k _
    simp only [Function.comp_apply]
    have h1 : 0 + Nat.succ k * n = n + (0 + k * n) := by
      rw [Nat.succ_mul]; ring
    rw [List.drop_drop, h1]

theorem list_batch_flatten (n : Nat) (hn : 0 < n) (lst : List α) :
    list_flatten (list_batch lst n) = lst := by
  suffices h : ∀ (L : Nat) (l : List α), l.length = L → list_flatten (list_batch l n) = l from
    h lst.length lst rfl
  intro L
  induction L using Nat.strong_induction_on with
  | _ L ih =>
    intro l hL
    cases l with
    | nil => simp [list_batch_nil, list_flatten]
    | cons x xs =>
      rw [list_batch_cons _ n hn (by simp)]
      simp only [list_flatten, List.flatten_cons]
      have hlt : ((x :: xs).drop n).length < L := by
        rw [List.length_drop, ← hL]
        simp only [List.length_cons]
        omega
      have := ih _ hlt ((x :: xs).drop n) rfl
      simp only [list_flatten] at this
      rw [this, List.take_append_drop]

theorem list_batch_chunk_lengths (n : Nat) (hn : 0 < n) (lst : List α) :
    ∀ c ∈ (list_batch lst n).dropLast, c.length = n := by
  suffices h : ∀ (L : Nat) (l : List α), l.length = L →
      ∀ c ∈ (list_batch l n).dropLast, c.length = n from h lst.length lst rfl
  intro L
  induction L using Nat.strong_induction_on with
  | _ L ih =>
    intro l hL
    cases l with
    | nil => simp [list_batch_nil]
    | cons x xs =>
      rw [list_batch_cons _ n hn (by simp)]
      by_cases hd : (x :: xs).drop n = []
      · rw [hd, list_batch_nil]
        simp
      · have hnd : list_batch ((x :: xs).drop n) n ≠ [] := by
          rw [list_batch_cons _ n hn hd]
          simp
        rw [List.dropLast_cons_of_ne_nil hnd]
        intro c hc
        rcases List.mem_cons.mp hc with hc | hc
        · subst hc
          rw [List.length_take]
          have : n ≤ (x :: xs).length := by
            by_contra hcon
            exact hd (List.drop_eq_nil_of_le (by omega))
          omega
        · have hlt : ((x :: xs).drop n).length < L := by
            rw [List.length_drop, ← hL]
            simp only [List.length_cons]
            omega
          exact ih _ hlt ((x :: xs).drop n) rfl c hc

theorem lrdAux_eq_firstOccurrenceDedup [DecidableEq α] (l : List α) :
    ∀ seen : List α, lrdAux seen l = firstOccurrenceDedup (l.filter (fun y => y ∉ seen)) := by
  induction l with
  | nil => intro seen; simp [lrdAux, firstOccurrenceDedup]
  | cons x xs ih =>
    intro seen
    by_cases hx : x ∈ seen
    · rw [lrdAux, if_pos hx, ih seen]
      have : List.filter (fun y => y ∉ seen) (x :: xs) = xs.filter (fun y => y ∉ seen) := by
        simp [List.filter_cons, hx]
      rw [this]
    · rw [lrdAux, if_neg hx, ih (x :: seen)]
      have h1 : List.filter (fun y => y ∉ seen) (x :: xs) =
          x :: xs.filter (fun y => y ∉ seen) := by
        simp [List.filter_cons, hx]
      rw [h1, firstOccurrenceDedup, List.filter_filter]
      have h2 : ∀ y ∈ xs, (decide ¬y = x && decide ¬y ∈ seen) = decide (y ∉ x :: seen) := by
        intro y _
        by_cases hyx : y = x <;> by_cases hys : y ∈ seen <;> simp [hyx, hys]
      rw [List.filter_congr h2]

theorem firstOccurrenceDedup_mem [DecidableEq α] (l : List α) (a : α) :
    a ∈ firstOccurrenceDedup l ↔ a ∈ l := by
  induction l using firstOccurrenceDedup.induct with
  | case1 => simp [firstOccurrenceDedup]
  | case2 x xs ih =>
    rw [firstOccurrenceDedup]
    simp only [List.mem_cons, ih, List.mem_filter]
    by_cases h : a = x <;> simp [h]

theorem firstOccurrenceDedup_nodup [DecidableEq α] (l : List α) :
    (firstOccurrenceDedup l).Nodup := by
  induction l using firstOccurrenceDedup.induct with
  | case1 => simp [firstOccurrenceDedup]
  | case2 x xs ih =>
    rw [firstOccurrenceDedup]
    refine List.nodup_cons.mpr ⟨?_, ih⟩
    intro hmem
    have := (firstOccurrenceDedup_mem _ _).mp hmem
    simp [List.mem_filter] at this

/- ### Lemmas about the date model -/

/-- At the formula level, the ordinal of `Feb 29` is `Jan 1`'s plus 59, so
the fallback's argument collapses to `Jan 1` of the destination year
plus 59 days. -/
theorem civilToDays_feb29 (y yy : Int) :
    civilToDays y 2 29 + (civilToDays yy 1 1 - civilToDays y 1 1) =
      civilToDays yy 1 1 + 59 := by
  simp only [civilToDays]
  norm_num
  ring

/-- `daysToCivil` is 400-year periodic: shifting by whole eras only shifts
the year. -/
theorem daysToCivil_shift (e z : Int) (h0 : 0 ≤ z) (h1 : z < 146097) :
    daysToCivil (e * 146097 + z - 719468) =
      ⟨(daysToCivil (z - 719468)).year + 400 * e, (daysToCivil (z - 719468)).month,
        (daysToCivil (z - 719468)).day⟩ := by
  have ha : e * 146097 + z - 719468 + 719468 = e * 146097 + z := by ring
  have hb : z - 719468 + 719468 = z := by ring
  have hz0 : z / 146097 = 0 := by omega
  have hera : (e * 146097 + z) / 146097 = e := by omega
  simp only [daysToCivil, ha, hb, hera, hz0]
  have hc : e * 146097 + z - e * 146097 = z := by ring
  have hd : z - 0 * 146097 = z := by ring
  rw [hc, hd]
  split_ifs <;> simp <;> ring

set_option maxRecDepth 100000 in
set_option maxHeartbeats 4000000 in
/-- Within the first era, day 59 of a non-leap year is March 1 (checked for
each of the 400 year positions in an era). -/
theorem daysToCivil_march_first_era : ∀ n : Nat, n < 400 →
    isLeap ((n : Int) + 1) = false →
    daysToCivil (365 * (n : Int) + (n : Int) / 4 - (n : Int) / 100 + 365 - 719468) =
      ⟨(n : Int) + 1, 3, 1⟩ := by decide

/-- Leap years are 400-year periodic. -/
theorem isLeap_add_400_mul (a k : Int) : isLeap (a + 400 * k) = isLeap a := by
  have h4 : (a + 400 * k) % 4 = a % 4 := by omega
  have h100 : (a + 400 * k) % 100 = a % 100 := by omega
  have h400 : (a + 400 * k) % 400 = a % 400 := by omega
  simp only [isLeap, h4, h100, h400]

/-- 59 days past January 1 of a non-leap year is March 1 of that year. -/
theorem daysToCivil_march (Y : Int) (hl : isLeap Y = false) :
    daysToCivil (civilToDays Y 1 1 + 59) = ⟨Y, 3, 1⟩ := by
  obtain ⟨n, hn4, e, hYr⟩ : ∃ n : Nat, n < 400 ∧ ∃ e : Int, Y = 400 * e + n + 1 := by
    refine ⟨((Y - 1) % 400).toNat, ?_, (Y - 1) / 400, ?_⟩ <;> omega
  have harg : civilToDays Y 1 1 + 59 =
      e * 146097 + (365 * (n : Int) + (n : Int) / 4 - (n : Int) / 100 + 365) - 719468 := by
    simp only [civilToDays]
    norm_num
    omega
  have hD0 : 0 ≤ 365 * (n : Int) + (n : Int) / 4 - (n : Int) / 100 + 365 := by omega
  have hD1 : 365 * (n : Int) + (n : Int) / 4 - (n : Int) / 100 + 365 < 146097 := by omega
  have hleapn : isLeap ((n : Int) + 1) = false := by
    have h1 : ((n : Int) + 1) + 400 * e = Y := by omega
    calc isLeap ((n : Int) + 1) = isLeap (((n : Int) + 1) + 400 * e) :=
          (isLeap_add_400_mul _ _).symm
      _ = false := by rw [h1]; exact hl
  rw [harg, daysToCivil_shift e _ hD0 hD1,
    daysToCivil_march_first_era n hn4 hleapn]
  simp only [Date.mk.injEq, and_true]
  omega

/- ### Lemmas about the matcher -/

theorem consume_length_le (n : Nat) (st : MState) :
    (consume st n).2.length ≤ st.2.length := by
  induction n generalizing st with
  | zero => simp [consume]
  | succ n ih =>
    obtain ⟨pv, s⟩ := st
    cases s with
    | nil => simp [consume]
    | cons c cs =>
      calc (consume (some c, cs) n).2.length ≤ cs.length := ih _
        _ ≤ (c :: cs).length := by simp

theorem reMatch_length_le (r : RE) (pv : Option Char) (s : List Char) :
    ∀ st ∈ reMatch r pv s, st.2.length ≤ s.length := by
  induction r generalizing pv s with
  | eps => intro st h; simp [reMatch] at h; simp [h]
  | lit c =>
    intro st h
    cases s with
    | nil => simp [reMatch] at h
    | cons x xs =>
      simp only [reMatch] at h
      split at h
      · simp at h; simp [h]
      · simp at h
  | cls p =>
    intro st h
    cases s with
    | nil => simp [reMatch] at h
    | cons x xs =>
      simp only [reMatch] at h
      split at h
      · simp at h; simp [h]
      · simp at h
  | alt a b iha ihb =>
    intro st h
    simp only [reMatch, List.mem_append] at h
    rcases h with h | h
    · exact iha pv s st h
    · exact ihb pv s st h
  | seq a b iha ihb =>
    intro st h
    simp only [reMatch, List.mem_flatMap] at h
    obtain ⟨st1, h1, h2⟩ := h
    calc st.2.length ≤ st1.2.length := ihb st1.1 st1.2 st h2
      _ ≤ s.length := iha pv s st1 h1
  | opt a iha =>
    intro st h
    simp only [reMatch, List.mem_append, List.mem_singleton] at h
    rcases h with h | h
    · exact iha pv s st h
    · simp [h]
  | starCls p =>
    intro st h
    simp only [reMatch, List.mem_map] at h
    obtain ⟨i, _, hi⟩ := h
    calc st.2.length = (consume (pv, s) (runLength p s - i)).2.length := by rw [hi]
      _ ≤ s.length := consume_length_le _ _
  | wordB =>
    intro st h
    simp only [reMatch] at h
    split at h
    · simp at h; simp [h]
    · simp at h

theorem reFind_length_le (r : RE) (pv : Option Char) (s : List Char)
    (st : MState) (h : reFind r pv s = some st) : st.2.length ≤ s.length := by
  apply reMatch_length_le r pv s st
  exact List.mem_of_mem_head? (by simp [reFind] at h; simp [h])

theorem subLoop_nil (r : RE) (fuel : Nat) (pv : Option Char) :
    subLoop r fuel pv [] = [] := by
  cases fuel with
  | zero => rfl
  | succ f =>
    simp only [subLoop]
    cases h : reFind r pv [] with
    | none => rfl
    | some st =>
      obtain ⟨pv2, rest⟩ := st
      have : rest.length ≤ 0 := reFind_length_le r pv [] _ h
      simp at this
      simp [this]

theorem subLoop_length_le (r : RE) (fuel : Nat) (pv : Option Char) (s : List Char) :
    (subLoop r fuel pv s).length ≤ s.length := by
  induction fuel generalizing pv s with
  | zero => simp [subLoop]
  | succ f ih =>
    simp only [subLoop]
    cases hf : reFind r pv s with
    | none =>
      cases s with
      | nil => simp
      | cons c cs =>
        simpa using ih (some c) cs
    | some st =>
      obtain ⟨pv2, rest⟩ := st
      by_cases hl : rest.length = s.length
      · simp only [hl, if_true]
        cases s with
        | nil => simp
        | cons c cs => simpa using ih (some c) cs
      · simp only [hl, if_false]
        calc (subLoop r f pv2 rest).length ≤ rest.length := ih pv2 rest
          _ ≤ s.length := reFind_length_le r pv s _ hf

theorem subLoop_fuel_irrelevant (r : RE) (f₁ f₂ : Nat) (pv : Option Char)
    (s : List Char) (h₁ : s.length ≤ f₁) (h₂ : s.length ≤ f₂) :
    subLoop r f₁ pv s = subLoop r f₂ pv s := by
  induction f₁ generalizing f₂ pv s with
  | zero =>
    have : s = [] := List.length_eq_zero.mp (Nat.le_antisymm h₁ (Nat.zero_le _))
    subst this
    rw [subLoop_nil, subLoop_nil]
  | succ f ih =>
    cases s with
    | nil => rw [subLoop_nil, subLoop_nil]
    | cons c cs =>
      cases f₂ with
      | zero => simp at h₂
      | succ g =>
        cases hf : reFind r pv (c :: cs) with
        | none =>
          simp only [subLoop, hf]
          rw [ih g (some c) cs (by simpa using h₁) (by simpa using h₂)]
        | some st =>
          obtain ⟨pv2, rest⟩ := st
          by_cases hl : rest.length = (c :: cs).length
          · simp only [subLoop, hf, hl, if_true]
            rw [ih g (some c) cs (by simpa using h₁) (by simpa using h₂)]
          · simp only [subLoop, hf, hl, if_false]
            have hle : rest.length ≤ (c :: cs).length := reFind_length_le r pv _ _ hf
            have hlt : rest.length < (c :: cs).length := Nat.lt_of_le_of_ne hle hl
            exact ih g pv2 rest (by omega) (by omega)

theorem subLoop_no_match (r : RE) (fuel : Nat) (pv : Option Char) (s : List Char)
    (h : hasMatchFrom r pv s = false) : subLoop r fuel pv s = s := by
  induction fuel generalizing pv s with
  | zero => rfl
  | succ f ih =>
    cases s with
    | nil => exact subLoop_nil r _ pv
    | cons c cs =>
      cases hre : reFind r pv (c :: cs) with
      | some st => rw [hasMatchFrom, hre] at h; simp at h
      | none =>
        rw [hasMatchFrom, hre] at h
        simp only [Option.isSome_none, Bool.false_or] at h
        simp only [subLoop, hre]
        rw [ih (some c) cs h]


/-!
### Claim theorems
-/

/-- C1, counterexample: the claim that `regex_strip_legalname` removes only
the first occurrence of the pattern and leaves later suffix-like substrings
in place is false at `"Acme Inc Ltd"`: the code (global `re.sub`) removes
both `" Inc "` and `"Ltd"`, giving `"Acme"`, whereas removing only the
first occurrence (the spec-modelled `stripLegalFirst`) would give
`"AcmeLtd"`, which still contains the later suffix `"Ltd"`. -/
theorem claim_C1_counterexample :
    regex_strip_legalname ["Acme Inc Ltd"] = ["Acme"] ∧
    stripLegalFirst "Acme Inc Ltd" = "AcmeLtd" ∧
    regex_strip_legalname ["Acme Inc Ltd"] ≠ [stripLegalFirst "Acme Inc Ltd"] :=
  ⟨by decide, by decide, by decide⟩

/-- C1, amended: the substitution is global: the first occurrence is
removed and the scan resumes after it, so every later non-overlapping
occurrence is removed as well ("Acme Inc Ltd" loses both "Inc" and "Ltd";
"Amazon.com Inc" loses both ".com" and "Inc"; "Worldwide Ltd plc" loses
all three tokens). -/
theorem claim_C1_amended :
    regex_strip_legalname ["Acme Inc Ltd", "Amazon.com Inc", "Worldwide Ltd plc"] =
      ["Acme", "Amazon", ""] := by decide

/-- C2: `regex_strip_legalname` maps a list of names to a list of the same
length, and the element at every index of the output is the normalization
(`stripLegal`, i.e. `re.sub(pattern, '', ·)`) of the element at the same
index of the input. -/
theorem claim_C2 (raw_names : List String) :
    (regex_strip_legalname raw_names).length = raw_names.length ∧
    ∀ i : Nat, (regex_strip_legalname raw_names)[i]? = (raw_names[i]?).map stripLegal := by
  refine ⟨by simp [regex_strip_legalname], fun i => ?_⟩
  simp [regex_strip_legalname]

/-- C3: a name in which the pattern matches nowhere is returned unchanged;
the empty string maps to the empty string; and every string consisting
solely of a single recognized suffix token maps to the empty string. -/
theorem claim_C3 :
    (∀ s : String, hasLegalMatch s = false → stripLegal s = s) ∧
    stripLegal "" = "" ∧
    List.map stripLegal
      [".com", "Enterprise", "Worldwide", String.mk ['I', 'n', 't', '\'', 'l'], "N.V.",
       "LLC", "Co", "Inc", "Corp", "Corporation", "Group Inc", "Group", "Company",
       "Holdings Inc", "plc", "Ltd", String.mk ['I', 'n', 't', '\'', 'l', '.'],
       "Holdings", "(Class A)", "Class A"] =
      ["", "", "", "", "", "", "", "", "", "", "", "", "", "", "", "", "", "", "", ""] := by
  refine ⟨?_, by decide, by decide⟩
  intro s h
  have h2 : subLoop legalPattern (s.data.length + 1) none s.data = s.data :=
    subLoop_no_match _ _ _ _ h
  show String.mk (subLoop legalPattern (s.data.length + 1) none s.data) = s
  rw [h2]

/-- C3, witness: "NoSuffixHere" contains no match and is returned
unchanged. -/
theorem claim_C3_witness :
    hasLegalMatch "NoSuffixHere" = false ∧ stripLegal "NoSuffixHere" = "NoSuffixHere" :=
  ⟨by decide, claim_C3.1 "NoSuffixHere" (by decide)⟩

/-- C4: each output string of `regex_strip_legalname` is no longer than the
corresponding input string (substitution only deletes characters). -/
theorem claim_C4 (s : String) : (stripLegal s).length ≤ s.length :=
  subLoop_length_le legalPattern (s.data.length + 1) none s.data

/-- C5: the spec's concrete test vectors. -/
theorem claim_C5 :
    regex_strip_legalname ["Acme Corp"] = ["Acme"] ∧
    regex_strip_legalname ["Acme Corporation"] = ["Acme"] ∧
    regex_strip_legalname ["Global Holdings Inc"] = ["Global"] ∧
    regex_strip_legalname ["Foo Bar (Class A)"] = ["Foo Bar"] :=
  ⟨by decide, by decide, by decide, by decide⟩

/-- C6: `regex_strip_legalname` is total: the scanning recursion needs at
most `length + 1` steps, so for any fuel at least the length of each name
the computation is complete and the function returns the same list (there
is no reachable error branch; every string input yields a result). -/
theorem claim_C6 (raw_names : List String) (fuel : Nat)
    (h : ∀ s ∈ raw_names, s.data.length ≤ fuel) :
    raw_names.map (fun s => String.mk (subLoop legalPattern fuel none s.data)) =
      regex_strip_legalname raw_names := by
  apply List.map_congr_left
  intro s hs
  show String.mk (subLoop legalPattern fuel none s.data) = stripLegal s
  unfold stripLegal
  congr 1
  exact subLoop_fuel_irrelevant _ _ _ _ _ (h s hs) (Nat.le_succ_of_le (Nat.le_refl _))

/-- C6, witness: at fuel 64 the computation agrees with the canonical
one on a concrete list (including the empty string). -/
theorem claim_C6_witness :
    ["Acme Corp", ""].map (fun s => String.mk (subLoop legalPattern 64 none s.data)) =
      regex_strip_legalname ["Acme Corp", ""] :=
  claim_C6 ["Acme Corp", ""] 64 (by decide)

/-- C7: applying `regex_strip_legalname` twice to `["Acme Group Inc"]`
gives the same result as applying it once (pointwise stability at this
input). -/
theorem claim_C7 :
    regex_strip_legalname (regex_strip_legalname ["Acme Group Inc"]) =
      regex_strip_legalname ["Acme Group Inc"] := by decide

/-- C8: for every positive batch size, flattening the chunks produced by
`list_batch` gives back the original list, and every chunk except possibly
the last has length exactly `n`. -/
theorem claim_C8 {α : Type} (lst : List α) (n : Nat) (hn : 0 < n) :
    list_flatten (list_batch lst n) = lst ∧
    ∀ c ∈ (list_batch lst n).dropLast, c.length = n :=
  ⟨list_batch_flatten n hn lst, list_batch_chunk_lengths n hn lst⟩

/-- C8, witness: round trip at a concrete list with batch size 3. -/
theorem claim_C8_witness :
    list_flatten (list_batch [1, 2, 3, 4, 5, 6, 7] 3) = [1, 2, 3, 4, 5, 6, 7] :=
  (claim_C8 [1, 2, 3, 4, 5, 6, 7] 3 (by decide)).1

/-- C9: `list_remove_duplicates` returns the distinct elements of `l` in
order of first occurrence (`firstOccurrenceDedup`), each exactly once; in
particular an element is in the output iff it is in `l`. -/
theorem claim_C9 {α : Type} [DecidableEq α] (l : List α) :
    list_remove_duplicates l = firstOccurrenceDedup l ∧
    (∀ a : α, a ∈ list_remove_duplicates l ↔ a ∈ l) ∧
    (list_remove_duplicates l).Nodup ∧
    ∀ a ∈ l, (list_remove_duplicates l).count a = 1 := by
  have heq : list_remove_duplicates l = firstOccurrenceDedup l := by
    show lrdAux [] l = _
    rw [lrdAux_eq_firstOccurrenceDedup]
    congr 1
    simp
  refine ⟨heq, fun a => ?_, ?_, fun a ha => ?_⟩
  · rw [heq]; exact firstOccurrenceDedup_mem l a
  · rw [heq]; exact firstOccurrenceDedup_nodup l
  · rw [heq]
    exact List.count_eq_one_of_mem (firstOccurrenceDedup_nodup l)
      ((firstOccurrenceDedup_mem l a).mpr ha)

/-- C9, witness: in `[3,1,3,2,1,4]` the duplicated element 3 appears
exactly once in the output. -/
theorem claim_C9_witness :
    (list_remove_duplicates [3, 1, 3, 2, 1, 4]).count 3 = 1 :=
  (claim_C9 [3, 1, 3, 2, 1, 4]).2.2.2 3 (by decide)

/-- C10: for a valid date `d` and any integer `years`: when the calendar
day `(d.month, d.day)` exists in year `d.year + years`, `date_add_year`
returns that same calendar day in the destination year; otherwise `d` must
be February 29 with a non-leap destination year, and the function returns
`d` shifted by the number of days between January 1 of the two years,
which is March 1 of the destination year. -/
theorem claim_C10 (d : Date) (years : Int)
    (hd : validDate d.year d.month d.day = true) :
    (validDate (d.year + years) d.month d.day = true ∧
       date_add_year d years = ⟨d.year + years, d.month, d.day⟩) ∨
    (validDate (d.year + years) d.month d.day = false ∧
       d.month = 2 ∧ d.day = 29 ∧ isLeap (d.year + years) = false ∧
       date_add_year d years =
         daysToCivil (civilToDays d.year d.month d.day +
           (civilToDays (d.year + years) 1 1 - civilToDays d.year 1 1)) ∧
       date_add_year d years = ⟨d.year + years, 3, 1⟩) := by
  by_cases hv : validDate (d.year + years) d.month d.day = true
  · exact Or.inl ⟨hv, by simp [date_add_year, hv]⟩
  · right
    have hv' : validDate (d.year + years) d.month d.day = false := by
      revert hv; cases validDate (d.year + years) d.month d.day <;> simp
    have hfall : date_add_year d years =
        daysToCivil (civilToDays d.year d.month d.day +
          (civilToDays (d.year + years) 1 1 - civilToDays d.year 1 1)) := by
      simp [date_add_year, hv']
    have hd' : ((1 ≤ d.month ∧ d.month ≤ 12) ∧ 1 ≤ d.day) ∧
        d.day ≤ daysInMonth d.year d.month := by simpa [validDate] using hd
    have hdim : daysInMonth (d.year + years) d.month < d.day := by
      by_contra hcon
      exact hv (by simp [validDate]; omega)
    have hm2 : d.month = 2 := by
      by_contra hm
      have hsame : daysInMonth (d.year + years) d.month = daysInMonth d.year d.month := by
        simp [daysInMonth, hm]
      omega
    have h29 : d.day = 29 ∧ isLeap d.year = true ∧ isLeap (d.year + years) = false := by
      rw [hm2] at hd' hdim
      cases h1 : isLeap d.year <;> cases h2 : isLeap (d.year + years) <;>
          simp [daysInMonth, h1, h2] at hd' hdim <;>
        first
          | omega
          | exact ⟨by omega, rfl, rfl⟩
    refine ⟨hv', hm2, h29.1, h29.2.2, hfall, ?_⟩
    rw [hfall, hm2, h29.1, civilToDays_feb29 d.year (d.year + years),
      daysToCivil_march _ h29.2.2]

/-- C10, witness: adding one year to February 29, 2020 gives March 1,
2021. -/
theorem claim_C10_witness :
    (validDate 2021 2 29 = true ∧ date_add_year ⟨2020, 2, 29⟩ 1 = ⟨2021, 2, 29⟩) ∨
    (validDate 2021 2 29 = false ∧ (2 : Int) = 2 ∧ (29 : Int) = 29 ∧
       isLeap 2021 = false ∧
       date_add_year ⟨2020, 2, 29⟩ 1 =
         daysToCivil (civilToDays 2020 2 29 +
           (civilToDays 2021 1 1 - civilToDays 2020 1 1)) ∧
       date_add_year ⟨2020, 2, 29⟩ 1 = ⟨2021, 3, 1⟩) :=
  claim_C10 ⟨2020, 2, 29⟩ 1 (by decide)
